import Mathlib

/-!
Verification of `git-bump` (`main.go`) against its natural-language
specification.

The development shallowly embeds the program's core logic:

* the Masterminds `semver/v3` functions the program calls
  (`NewVersion`, `String`, `Original`, `originalVPrefix`, `Compare`,
  `LessThan`, `IncMajor`, `IncMinor`, `IncPatch`), translated from the
  library source since the program's behaviour on versions is entirely
  determined by them;
* the program's own functions `currentVersion`, `nextVersion`,
  `PushTag`, the tag-name computation in `Run`, and the top-level `run`.

Go strings are modelled as `List Char` (UTF-8 byte order coincides with
code-point order, so Go's string comparison is the code-point
lexicographic order used here).  Go `uint64` values are modelled as
`Nat` with explicit `% 2^64` where the source can overflow.
-/

deriving instance DecidableEq for Except

namespace GitBump

/-- The 2^64 modulus of Go's `uint64` arithmetic. -/
def u64Mod : Nat := 2 ^ 64

/-- Character class `[0-9A-Za-z-]`, the `allowed` set of
`Masterminds/semver` (`alphanum + "-"`), which is also the character
class of the pre-release / metadata chunks in `SemVerRegex`. -/
def allowedChar (c : Char) : Bool :=
  c.isDigit || c.isAlpha || c = '-'

/-- `digitVal c` is the numeric value of a decimal digit character. -/
def digitVal (c : Char) : Nat := c.toNat - 48

/-- Value of a digit string, most significant first: the accumulator
loop `n = n*10 + d` of `strconv.ParseUint(s, 10, 64)`. -/
def digitsVal (s : List Char) : Nat :=
  s.foldl (fun a c => 10 * a + digitVal c) 0

/-- `strconv.ParseUint(s, 10, 64)`: succeeds exactly on non-empty
all-digit strings whose value fits in a `uint64`; on failure the callers
in the semver library only inspect the error, so the model returns
`none`. -/
def parseUint64 (s : List Char) : Option Nat :=
  if s ≠ [] ∧ s.all Char.isDigit then
    if digitsVal s < u64Mod then some (digitsVal s) else none
  else none

/-- Decimal digits of `n`, most significant first, onto `acc`: the
digit loop of `strconv.FormatUint(n, 10)` (used by `fmt` `%d`).  The
structural `fuel` only bounds the recursion (`n` loses a digit per
step, so any `fuel > n` is never exhausted). -/
def natDecimalCore : Nat → Nat → List Char → List Char
  | 0, _, acc => acc
  | fuel + 1, n, acc =>
    if n < 10 then Char.ofNat (48 + n) :: acc
    else natDecimalCore fuel (n / 10) (Char.ofNat (48 + n % 10) :: acc)

/-- `strconv.FormatUint(n, 10)`. -/
def natDecimal (n : Nat) : List Char := natDecimalCore (n + 1) n []

/-- `strings.Split(s, ".")` for the one-character separator `"."`. -/
def splitDot : List Char → List (List Char)
  | [] => [[]]
  | c :: rest =>
    if c = '.' then [] :: splitDot rest
    else
      match splitDot rest with
      | s :: ss => (c :: s) :: ss
      | [] => [[c]]

/-- Join chunks with `'.'`; inverse of `splitDot` on dot-free chunks,
used to reconstruct the raw submatch text `m[5]` / `m[8]` of the semver
regex from its chunks. -/
def joinDot : List (List Char) → List Char
  | [] => []
  | [c] => c
  | c :: cs => c ++ '.' :: joinDot cs

/-- `semver.Version`: major/minor/patch (`uint64`), pre-release and
build-metadata strings, and the original textual form. -/
structure SemVersion where
  major : Nat
  minor : Nat
  patch : Nat
  pre : List Char
  metadata : List Char
  original : List Char
  deriving DecidableEq, Repr

/-- The tail of the chunk sequence `(\.[0-9A-Za-z-]+)*`: consume
`'.'`-separated non-empty runs of `allowedChar` greedily, stopping
(without consuming the dot) when a dot is not followed by a class
character.  The structural `fuel` only bounds the recursion (each
iteration consumes at least two characters, so any `fuel ≥ r.length`
is never exhausted). -/
def chunkLoopCore : Nat → List Char → List (List Char) × List Char
  | 0, r => ([], r)
  | fuel + 1, r =>
    match r with
    | a :: rest =>
      if a = '.' then
        let c := rest.takeWhile allowedChar
        if c = [] then ([], a :: rest)
        else
          let (cs, rr) := chunkLoopCore fuel (rest.dropWhile allowedChar)
          (c :: cs, rr)
      else ([], a :: rest)
    | [] => ([], [])

/-- The chunk sequence `[0-9A-Za-z-]+(\.[0-9A-Za-z-]+)*`: `none` if no
class character starts the input. -/
def chunkSeq (r : List Char) : Option (List (List Char) × List Char) :=
  let c := r.takeWhile allowedChar
  if c = [] then none
  else
    let (cs, rr) := chunkLoopCore r.length (r.dropWhile allowedChar)
    some (c :: cs, rr)

/-- Optional group `(\.[0-9]+)?` of the semver regex (the submatch is
returned without its leading dot, matching the `strings.TrimPrefix`
at the use site). -/
def matchDotDigits (r : List Char) : Option (List Char) × List Char :=
  match r with
  | '.' :: rest =>
    let d := rest.takeWhile Char.isDigit
    if d = [] then (none, '.' :: rest)
    else (some d, rest.dropWhile Char.isDigit)
  | other => (none, other)

/-- Optional group `(-pre)?` or `(+meta)?`: the submatch is the chunk
list of the body (the raw submatch text is `joinDot` of it). -/
def matchMarkedChunks (mark : Char) (r : List Char) :
    Option (List (List Char)) × List Char :=
  match r with
  | c :: rest =>
    if c = mark then
      match chunkSeq rest with
      | some (cs, rr) => (some cs, rr)
      | none => (none, c :: rest)
    else (none, c :: rest)
  | [] => (none, [])

/-- Submatches of `^v?([0-9]+)(\.[0-9]+)?(\.[0-9]+)?(-(chunks))?(+(chunks))?$`. -/
structure RegexGroups where
  m1 : List Char
  m2 : Option (List Char)
  m3 : Option (List Char)
  preChunks : Option (List (List Char))
  metaChunks : Option (List (List Char))
  deriving DecidableEq

/-- The leading `v?` of the semver regex: consumed exactly when the
first character is `'v'` (the only way the mandatory digits can
follow). -/
def stripV (s : List Char) : List Char :=
  match s with
  | 'v' :: rest => rest
  | other => other

/-- Anchored match of `versionRegex` against `s`.  The alternation
points of the regex are all forced (each optional group begins with a
delimiter no other continuation accepts), so greedy matching computes
the unique match. -/
def regexMatch (s : List Char) : Option RegexGroups :=
  let s1 := stripV s
  let d1 := s1.takeWhile Char.isDigit
  if d1 = [] then none
  else
    let r1 := s1.dropWhile Char.isDigit
    let (m2, r2) := matchDotDigits r1
    let (m3, r3) := matchDotDigits r2
    let (pre, r4) := matchMarkedChunks '-' r3
    let (meta, r5) := matchMarkedChunks '+' r4
    if r5 = [] then some ⟨d1, m2, m3, pre, meta⟩ else none

/-- `!(len(p) > 1 && p[0] == '0')`: no leading zero in a multi-digit
numeric identifier. -/
def noLeadZero (p : List Char) : Bool :=
  !(decide (1 < p.length) && (p.head? == some '0'))

/-- One dot-separated pre-release part check of `validatePrerelease`:
a purely numeric part (`containsOnly(p, num)`) must not have a leading
zero unless it is a single digit; otherwise all characters must lie in
`allowed`. -/
def preSegOK (p : List Char) : Bool :=
  if p.all Char.isDigit then noLeadZero p
  else p.all allowedChar

/-- `validatePrerelease`. -/
def validatePre (p : List Char) : Bool :=
  (splitDot p).all preSegOK

/-- `validateMetadata`. -/
def validateMeta (p : List Char) : Bool :=
  (splitDot p).all (·.all allowedChar)

/-- `semver.NewVersion` (the loose parser used by `currentVersion`):
regex match, `ParseUint` of the numeric segments (absent minor/patch
default to 0), then pre-release/metadata validation.  `original` keeps
the raw input. -/
def semverNewVersion (s : List Char) : Option SemVersion :=
  match regexMatch s with
  | none => none
  | some m =>
    match parseUint64 m.m1 with
    | none => none
    | some ma =>
      match (match m.m2 with | none => some 0 | some d => parseUint64 d) with
      | none => none
      | some mi =>
        match (match m.m3 with | none => some 0 | some d => parseUint64 d) with
        | none => none
        | some pa =>
          let pre := match m.preChunks with | none => [] | some cs => joinDot cs
          let md := match m.metaChunks with | none => [] | some cs => joinDot cs
          if pre ≠ [] ∧ ¬ validatePre pre then none
          else if md ≠ [] ∧ ¬ validateMeta md then none
          else some ⟨ma, mi, pa, pre, md, s⟩

/-- `Version.String()`: `major.minor.patch`, then `-pre` and `+metadata`
when present. -/
def versionString (v : SemVersion) : List Char :=
  natDecimal v.major ++ '.' :: natDecimal v.minor ++ '.' :: natDecimal v.patch
    ++ (if v.pre = [] then [] else '-' :: v.pre)
    ++ (if v.metadata = [] then [] else '+' :: v.metadata)

/-- `Version.Original()`. -/
def semverOriginal (v : SemVersion) : List Char := v.original

/-- `Version.originalVPrefix()`: `"v"` when the original text begins
with `'v'`, else `""`. -/
def originalVMark (v : SemVersion) : List Char :=
  if v.original.head? = some 'v' then ['v'] else []

/-- `Version.IncMajor()`: bump major (uint64 arithmetic), zero minor and
patch, drop pre-release and metadata, rebuild `original`. -/
def incMajor (v : SemVersion) : SemVersion :=
  let next : SemVersion :=
    { major := (v.major + 1) % u64Mod, minor := 0, patch := 0,
      pre := [], metadata := [], original := [] }
  { next with original := originalVMark v ++ versionString next }

/-- `Version.IncMinor()`. -/
def incMinor (v : SemVersion) : SemVersion :=
  let next : SemVersion :=
    { major := v.major, minor := (v.minor + 1) % u64Mod, patch := 0,
      pre := [], metadata := [], original := [] }
  { next with original := originalVMark v ++ versionString next }

/-- `Version.IncPatch()`: when a pre-release is present the bump only
removes it (semver spec item 9) and the patch number is kept; otherwise
the patch number is incremented.  Metadata is dropped either way. -/
def incPatch (v : SemVersion) : SemVersion :=
  let next : SemVersion :=
    if v.pre ≠ [] then
      { major := v.major, minor := v.minor, patch := v.patch,
        pre := [], metadata := [], original := [] }
    else
      { major := v.major, minor := v.minor, patch := (v.patch + 1) % u64Mod,
        pre := [], metadata := [], original := [] }
  { next with original := originalVMark v ++ versionString next }

/-- Go's `s > o` on strings: lexicographic order on UTF-8 bytes, which
agrees with lexicographic order on code points. -/
def goStrGt : List Char → List Char → Bool
  | [], _ => false
  | _ :: _, [] => true
  | a :: as, b :: bs =>
    if a = b then goStrGt as bs
    else decide (b.toNat < a.toNat)

/-- `compareSegment` on two `uint64` version segments. -/
def compareSegment (v o : Nat) : Int :=
  if v < o then -1 else if v > o then 1 else 0

/-- `comparePrePart`: one dot-separated pre-release identifier against
another.  Identifiers that `ParseUint` accepts compare numerically and
sort below the others; the rest compare as strings.  (When both parse
to the same number but differ as strings the function returns -1 in
both directions; validated identifiers never hit that case.) -/
def comparePrePart (s o : List Char) : Int :=
  if s = o then 0
  else if s = [] then (if o ≠ [] then -1 else 1)
  else if o = [] then (if s ≠ [] then 1 else -1)
  else
    match parseUint64 o, parseUint64 s with
    | none, none => if goStrGt s o then 1 else -1
    | none, some _ => -1
    | some _, none => 1
    | some oi, some si => if si > oi then 1 else -1

/-- The indexed loop of `comparePrerelease` over the two split part
lists, padding the shorter side with `""`. -/
def prePartsCmp : List (List Char) → List (List Char) → Int
  | [], [] => 0
  | [], o :: os =>
    let d := comparePrePart [] o
    if d ≠ 0 then d else prePartsCmp [] os
  | s :: ss, [] =>
    let d := comparePrePart s []
    if d ≠ 0 then d else prePartsCmp ss []
  | s :: ss, o :: os =>
    let d := comparePrePart s o
    if d ≠ 0 then d else prePartsCmp ss os

/-- `comparePrerelease`: split both strings on `"."` and compare the
parts in order. -/
def comparePrerelease (v o : List Char) : Int :=
  prePartsCmp (splitDot v) (splitDot o)

/-- The pre-release block at the end of `Version.Compare`: an absent
pre-release outranks a present one, two present ones compare by
`comparePrerelease`. -/
def preCmpBlock (p q : List Char) : Int :=
  if p = [] ∧ q = [] then 0
  else if p = [] then 1
  else if q = [] then -1
  else comparePrerelease p q

/-- `Version.Compare`: major, minor, patch, then pre-release precedence;
build metadata is ignored.  (Go returns the first non-zero segment
comparison; the nested conditionals inline those early returns.) -/
def semverCompare (v o : SemVersion) : Int :=
  if compareSegment v.major o.major ≠ 0 then compareSegment v.major o.major
  else if compareSegment v.minor o.minor ≠ 0 then compareSegment v.minor o.minor
  else if compareSegment v.patch o.patch ≠ 0 then compareSegment v.patch o.patch
  else preCmpBlock v.pre o.pre

/-- `Version.LessThan` (the `Less` of `semver.Collection`). -/
def semverLessThan (v o : SemVersion) : Bool :=
  decide (semverCompare v o < 0)

/-- The ascending order `sort.Sort(semver.Collection(vs))` establishes:
`x` may precede `y` when `y` is not less than `x`. -/
def goLe (x y : SemVersion) : Bool := ! semverLessThan y x

/-- Ordered insertion used to realise the `sort.Sort` contract. -/
def insertSorted (x : SemVersion) : List SemVersion → List SemVersion
  | [] => [x]
  | y :: ys => if goLe x y then x :: y :: ys else y :: insertSorted x ys

/-- `sort.Sort(semver.Collection(vs))` by its contract: a permutation of
the input that is ascending for `Less`.  Which permutation Go's
unstable sort picks among `Compare`-ties does not affect any claim, so
the contract is realised here by insertion sort. -/
def sortGo (l : List SemVersion) : List SemVersion :=
  l.foldr insertSorted []

/-- Outcome of a Go code path that may panic (nil dereference or
out-of-range index). -/
inductive GoOutcome (α : Type) where
  | ok (a : α)
  | crash
  deriving DecidableEq, Repr

/-- The version-slice loop of `currentVersion` (main.go lines 196-203):
`vs` is pre-allocated with `len(tags)` slots and a tag that fails to
parse leaves its slot `nil` (`continue` skips only the assignment), so
the slice always has one entry per tag. -/
def versionSlice (tags : List (List Char)) : List (Option SemVersion) :=
  tags.map semverNewVersion

/-- `currentVersion` after the tag scan (main.go lines 196-206):
sort the slice and take its last element.  An empty tag list indexes
`vs[-1]` (panic).  A slice of length ≥ 2 containing a `nil` panics when
the sort compares the `nil` entry (`Compare` dereferences both
receiver and argument, and the sort compares every adjacent pair at
least once); a singleton slice is never compared, so a sole
unparseable tag yields `nil` with a `nil` error.  No error value is
produced on any of these paths. -/
def currentVersionGo (tags : List (List Char)) : GoOutcome (Option SemVersion) :=
  let vs := versionSlice tags
  match vs with
  | [] => .crash
  | [v] => .ok v
  | _ :: _ :: _ =>
    if vs.all Option.isSome then
      .ok (sortGo (vs.filterMap id)).getLast?
    else .crash

/-- The bump-kind enumeration `Spec` (`Major | Minor | Patch`). -/
inductive BumpSpec where
  | Major
  | Minor
  | Patch
  deriving DecidableEq, Repr

/-- The bump flags of the `Option` struct. -/
structure GoOptions where
  major : Bool
  minor : Bool
  patch : Bool
  quiet : Bool
  deriving DecidableEq, Repr

/-- The `specs` list built in `nextVersion` (main.go lines 235-244):
append `Major`, then `Minor`, then `Patch`, for each flag set. -/
def specsOf (o : GoOptions) : List BumpSpec :=
  (if o.major then [BumpSpec.Major] else [])
    ++ (if o.minor then [BumpSpec.Minor] else [])
    ++ (if o.patch then [BumpSpec.Patch] else [])

/-- `strconv.Quote` (the `%q` verb) for strings of printable ASCII
characters other than `'"'` and `'\\'`: wrap in double quotes.  (The
escaping of quotes, backslashes and non-printables is irrelevant to
every claim and is not modelled; tag names never require it.) -/
def goQuote (s : List Char) : List Char := '"' :: s ++ ['"']

/-- The prompt label `fmt.Sprintf("Current tag is %q. Next is?",
current.Original())`. -/
def promptLabel (orig : List Char) : List Char :=
  "Current tag is ".toList ++ goQuote orig ++ ". Next is?".toList

/-- The `switch spec` at main.go lines 268-277: apply the resolved bump
kind to the current version. -/
def bumpBy (current : SemVersion) : BumpSpec → SemVersion
  | .Major => incMajor current
  | .Minor => incMinor current
  | .Patch => incPatch current

/-- Result of `nextVersion`: whether (and with what label and items) the
interactive prompt ran, and the returned version or error. -/
structure NextTrace where
  prompt : Option (List Char × List BumpSpec)
  result : Except Unit SemVersion
  deriving DecidableEq

/-- `nextVersion` (main.go lines 232-279).  The interactive selection is
an injected capability `choose` (the `promptui.Select.Run` call):
given the label and item list it returns the selected index (always in
range on success) or an error.  Zero flags prompt over
`[Patch, Minor, Major]`; one flag is used directly without prompting;
two or more flags prompt over the declared list `specs`.  The `switch`
default (`"invalid semver"`) is unreachable since every resolved value
is one of the three constants. -/
def nextVersionGo
    (choose : List Char → (items : List BumpSpec) → Except Unit (Fin items.length))
    (opt : GoOptions) (current : SemVersion) : NextTrace :=
  let label := promptLabel (semverOriginal current)
  match specsOf opt with
  | [] =>
    let items := [BumpSpec.Patch, BumpSpec.Minor, BumpSpec.Major]
    match choose label items with
    | .error e => ⟨some (label, items), .error e⟩
    | .ok i => ⟨some (label, items), .ok (bumpBy current (items.get i))⟩
  | [s] => ⟨none, .ok (bumpBy current s)⟩
  | s0 :: s1 :: rest =>
    let items := s0 :: s1 :: rest
    match choose label items with
    | .error e => ⟨some (label, items), .error e⟩
    | .ok i => ⟨some (label, items), .ok (bumpBy current (items.get i))⟩

/-- The tag-name computation in `Run` (main.go lines 102-105): the next
version's canonical string, prefixed with `"v"` exactly when the
current version's original text has that marker. -/
def tagNameOf (current next : SemVersion) : List Char :=
  if ['v'].isPrefixOf (semverOriginal current) then 'v' :: versionString next
  else versionString next

/-- Outcomes of the external collaborators `PushTag` consults, in call
order (HEAD resolution, commit lookup, git-config user and email, tag
creation, push).  Each is an injected capability. -/
structure PushEnv where
  headResult : Except (List Char) Nat
  commitResult : Except (List Char) Nat
  userResult : Except (List Char) (List Char)
  emailResult : Except (List Char) (List Char)
  createTagResult : Except (List Char) Unit
  pushResult : Except (List Char) Unit
  deriving DecidableEq

/-- `fmt.Fprintf(c.Stdout, "Bump version to %q.\n", tag)`. -/
def bumpLine (tag : List Char) : List Char :=
  "Bump version to ".toList ++ goQuote tag ++ ".\n".toList

/-- `fmt.Fprintf(c.Stdout, "Pushed to origin.\n")`. -/
def pushedLine : List Char := "Pushed to origin.\n".toList

/-- Observable outcome of `PushTag`: the milestone lines written to
`c.Stdout`, whether the push was attempted, the resulting local tag
set, and the returned error. -/
structure PushTrace where
  stdoutLines : List (List Char)
  pushAttempted : Bool
  localTags : List (List Char)
  ret : Option (List Char)
  deriving DecidableEq

/-- `PushTag` (main.go lines 123-174).  Each failing step returns its
error immediately.  After a successful `CreateTag` the new tag is in
the local tag set and the "Bump version to …" line is printed; the
"Pushed to origin." line is *deferred* (line 164), so it is printed
when the function returns, whether or not `Push` succeeded.  No step
ever removes a tag. -/
def pushTagGo (env : PushEnv) (tags0 : List (List Char)) (tag : List Char) :
    PushTrace :=
  match env.headResult with
  | .error e => ⟨[], false, tags0, some e⟩
  | .ok _ =>
    match env.commitResult with
    | .error e => ⟨[], false, tags0, some e⟩
    | .ok _ =>
      match env.userResult with
      | .error e => ⟨[], false, tags0, some e⟩
      | .ok _ =>
        match env.emailResult with
        | .error e => ⟨[], false, tags0, some e⟩
        | .ok _ =>
          match env.createTagResult with
          | .error e => ⟨[], false, tags0, some e⟩
          | .ok _ =>
            match env.pushResult with
            | .error e => ⟨[bumpLine tag, pushedLine], true, tag :: tags0, some e⟩
            | .ok _ => ⟨[bumpLine tag, pushedLine], true, tag :: tags0, none⟩

/-- Output channels of the process: the real standard streams and the
discarding sink `ioutil.Discard`. -/
inductive GoWriter where
  | stdout
  | stderr
  | discard
  deriving DecidableEq, Repr

/-- The writer fields of the `CLI` struct. -/
structure CLIWriters where
  outW : GoWriter
  errW : GoWriter
  deriving DecidableEq, Repr

/-- The writers `run` installs (main.go lines 60-65): the real process
streams. -/
def initialWriters : CLIWriters := ⟨.stdout, .stderr⟩

/-- Lines 74-76 of `Run`: quiet mode replaces both writer *fields* of
the CLI struct with the discarding sink; nothing else changes. -/
def applyQuiet (quiet : Bool) (c : CLIWriters) : CLIWriters :=
  if quiet then ⟨.discard, .discard⟩ else c

/-- `"[ERROR] %v\n"` (main.go line 67). -/
def errorLine (msg : List Char) : List Char :=
  "[ERROR] ".toList ++ msg ++ ['\n']

/-- The top-level `run` (main.go lines 54-71) around an inner `cli.Run`
whose milestone output and outcome are abstracted as `innerLines` and
`innerErr`.  Milestone lines are written through the (possibly
quieted) CLI stdout field; when `cli.Run` returns an error, line 67
writes the `[ERROR]`-prefixed message to `os.Stderr` itself — not
through the CLI's writer fields — and the process exits 1. -/
def runGo (quiet : Bool) (innerLines : List (List Char))
    (innerErr : Option (List Char)) : Nat × List (GoWriter × List Char) :=
  let c := applyQuiet quiet initialWriters
  let milestoneWrites := innerLines.map (fun l => (c.outW, l))
  match innerErr with
  | some msg => (1, milestoneWrites ++ [(GoWriter.stderr, errorLine msg)])
  | none => (0, milestoneWrites)

/-- `err == nil` on a collaborator outcome. -/
def exceptOk {ε α : Type} : Except ε α → Bool
  | .ok _ => true
  | .error _ => false

/-- All phases of `PushTag` before the push succeed. -/
def prePhasesOk (env : PushEnv) : Bool :=
  exceptOk env.headResult && exceptOk env.commitResult
    && exceptOk env.userResult && exceptOk env.emailResult
    && exceptOk env.createTagResult

/-- A well-formed pre-release identifier as guaranteed for parsed
versions: non-empty (the regex chunks are non-empty) and, when purely
numeric, without a leading zero (enforced by `validatePrerelease`). -/
def ValidSeg (p : List Char) : Prop :=
  p ≠ [] ∧ (p.all Char.isDigit = true → noLeadZero p = true)

/-- The pre-release well-formedness of every parsed version. -/
def PVal (v : SemVersion) : Prop :=
  v.pre ≠ [] → ∀ p ∈ splitDot v.pre, ValidSeg p

/-- Whether a bump kind's flag is set. -/
def declares (o : GoOptions) : BumpSpec → Bool
  | .Major => o.major
  | .Minor => o.minor
  | .Patch => o.patch

/-- A chooser that picks the first menu item (a deterministic stand-in
for the interactive selection). -/
def chooseFirst : List Char → (items : List BumpSpec) → Except Unit (Fin items.length) :=
  fun _ items =>
    match items with
    | [] => .error ()
    | _ :: _ => .ok ⟨0, by simp⟩

/-- The parsed version of the tag text `"v1.2.3"`. -/
def v123 : SemVersion := ⟨1, 2, 3, [], [], "v1.2.3".toList⟩

/-- The parsed version of the tag text `"1.2.3-alpha"`. -/
def v123alpha : SemVersion := ⟨1, 2, 3, "alpha".toList, [], "1.2.3-alpha".toList⟩

/-- The parsed version of the tag text `"0.1.0"`. -/
def v010 : SemVersion := ⟨0, 1, 0, [], [], "0.1.0".toList⟩

/-- Flags `--major --patch`. -/
def optsMajorPatch : GoOptions := ⟨true, false, true, false⟩

/-- No bump flags. -/
def optsNone : GoOptions := ⟨false, false, false, false⟩

/-- Flag `--minor` only. -/
def optsMinor : GoOptions := ⟨false, true, false, false⟩

/-- Collaborators that all succeed. -/
def envAllOk : PushEnv :=
  ⟨.ok 0, .ok 0, .ok ("u".toList), .ok ("e".toList), .ok (), .ok ()⟩

/-- Collaborators where only the push fails. -/
def envPushFail : PushEnv := { envAllOk with pushResult := .error ("auth".toList) }

/-- Collaborators where tag creation fails. -/
def envCreateFail : PushEnv :=
  { envAllOk with createTagResult := .error ("exists".toList) }

/-! ## Helper lemmas -/

theorem natDecimalCore_head (fuel : Nat) :
    ∀ (n : Nat) (acc : List Char), n < fuel →
      ∃ d, d < 10 ∧ (natDecimalCore fuel n acc).head? = some (Char.ofNat (48 + d)) := by
  induction fuel with
  | zero => intro n acc h; omega
  | succ m ih =>
    intro n acc h
    by_cases hn : n < 10
    · exact ⟨n, hn, by simp [natDecimalCore, hn]⟩
    · have hrec : natDecimalCore (m + 1) n acc
          = natDecimalCore m (n / 10) (Char.ofNat (48 + n % 10) :: acc) := by
        simp [natDecimalCore, hn]
      rw [hrec]
      refine ih (n / 10) _ ?_
      have h1 : n / 10 < n := Nat.div_lt_self (by omega) (by omega)
      omega

theorem natDecimal_head (n : Nat) :
    ∃ d, d < 10 ∧ (natDecimal n).head? = some (Char.ofNat (48 + d)) :=
  natDecimalCore_head (n + 1) n [] (Nat.lt_succ_self n)

theorem versionString_not_v (v : SemVersion) :
    ['v'].isPrefixOf (versionString v) = false := by
  obtain ⟨d, hd, hh⟩ := natDecimal_head v.major
  cases hnd : natDecimal v.major with
  | nil => rw [hnd] at hh; simp at hh
  | cons c t =>
    rw [hnd] at hh
    simp only [List.head?_cons, Option.some.injEq] at hh
    have hv : versionString v = c :: (t ++ '.' :: natDecimal v.minor
        ++ '.' :: natDecimal v.patch
        ++ (if v.pre = [] then [] else '-' :: v.pre)
        ++ (if v.metadata = [] then [] else '+' :: v.metadata)) := by
      simp [versionString, hnd]
    rw [hv]
    have hne : ('v' == c) = false := by
      subst hh
      interval_cases d <;> decide
    simp [List.isPrefixOf, hne]

/-! ## Decimal identifiers have unique canonical representations -/

theorem char_toNat_inj {c d : Char} (h : c.toNat = d.toNat) : c = d := by
  rw [← Char.ofNat_toNat c, ← Char.ofNat_toNat d, h]

theorem digit_bounds {c : Char} (h : c.isDigit = true) :
    48 ≤ c.toNat ∧ c.toNat ≤ 57 := by
  simp [Char.isDigit, Char.le_def] at h
  exact ⟨h.1, h.2⟩

theorem digitVal_lt_10 {c : Char} (h : c.isDigit = true) : digitVal c < 10 := by
  obtain ⟨h1, h2⟩ := digit_bounds h
  simp [digitVal]
  omega

theorem digitVal_inj {c d : Char} (hc : c.isDigit = true) (hd : d.isDigit = true)
    (h : digitVal c = digitVal d) : c = d := by
  obtain ⟨hc1, hc2⟩ := digit_bounds hc
  obtain ⟨hd1, hd2⟩ := digit_bounds hd
  simp [digitVal] at h
  exact char_toNat_inj (by omega)

theorem digitsVal_append (xs : List Char) (c : Char) :
    digitsVal (xs ++ [c]) = 10 * digitsVal xs + digitVal c := by
  simp [digitsVal, List.foldl_append]

theorem digitsVal_aux_ge (l : List Char) :
    ∀ a : Nat, a ≤ l.foldl (fun a c => 10 * a + digitVal c) a := by
  induction l with
  | nil => intro a; simp
  | cons c t ih =>
    intro a
    simp only [List.foldl_cons]
    exact le_trans (by omega) (ih (10 * a + digitVal c))

theorem digitsVal_pos {c : Char} {t : List Char} (hc : c.isDigit = true)
    (hne : c ≠ '0') : 0 < digitsVal (c :: t) := by
  have h1 : 1 ≤ digitVal c := by
    obtain ⟨hb1, hb2⟩ := digit_bounds hc
    have : c.toNat ≠ 48 := by
      intro h
      exact hne (char_toNat_inj (h.trans (by decide)))
    simp [digitVal]
    omega
  have h2 := digitsVal_aux_ge t (10 * 0 + digitVal c)
  simp only [digitsVal, List.foldl_cons]
  omega

theorem noLeadZero_cons (c : Char) (t : List Char) :
    noLeadZero (c :: t) = true ↔ (c ≠ '0' ∨ t = []) := by
  cases t with
  | nil => simp [noLeadZero]
  | cons a b => by_cases hc : c = '0' <;> simp [noLeadZero, hc]

theorem noLeadZero_head {c : Char} {t : List Char}
    (h : noLeadZero (c :: t) = true) (hne : t ≠ []) : c ≠ '0' := by
  rcases (noLeadZero_cons c t).mp h with h1 | h1
  · exact h1
  · exact absurd h1 hne

/-- A non-empty all-digit string without a leading zero is determined
by its value: the injectivity behind "validated numeric identifiers
that compare numerically equal are identical". -/
theorem digits_inj :
    ∀ (s o : List Char), s.all Char.isDigit = true → o.all Char.isDigit = true →
      s ≠ [] → o ≠ [] → noLeadZero s = true → noLeadZero o = true →
      digitsVal s = digitsVal o → s = o := by
  intro s
  induction s using List.reverseRecOn with
  | nil => intro o _ _ hs _ _ _ _; exact absurd rfl hs
  | append_singleton xs c ih =>
    intro o hsd hod _ hone hsz hoz hval
    induction o using List.reverseRecOn with
    | nil => exact absurd rfl hone
    | append_singleton ys d _ =>
      have hcd : c.isDigit = true := by
        have := List.all_eq_true.mp hsd c (by simp)
        exact this
      have hdd : d.isDigit = true := by
        have := List.all_eq_true.mp hod d (by simp)
        exact this
      rw [digitsVal_append, digitsVal_append] at hval
      have hc10 := digitVal_lt_10 hcd
      have hd10 := digitVal_lt_10 hdd
      have hdig : digitVal c = digitVal d := by omega
      have hxy : digitsVal xs = digitsVal ys := by omega
      have hce : c = d := digitVal_inj hcd hdd hdig
      subst hce
      -- it remains to show xs = ys
      rcases hx : xs with _ | ⟨x, xs1⟩
      · rcases hy : ys with _ | ⟨y, ys1⟩
        · rfl
        · exfalso
          subst hx hy
          have hyd : y.isDigit = true :=
            List.all_eq_true.mp hod y (by simp)
          have hy0 : y ≠ '0' := by
            apply noLeadZero_head hoz
            simp
          have := digitsVal_pos hyd hy0 (t := ys1)
          have h0 : digitsVal ([] : List Char) = 0 := by simp [digitsVal]
          rw [← hxy, h0] at this
          omega
      · rcases hy : ys with _ | ⟨y, ys1⟩
        · exfalso
          subst hx hy
          have hxd : x.isDigit = true :=
            List.all_eq_true.mp hsd x (by simp)
          have hx0 : x ≠ '0' := by
            apply noLeadZero_head hsz
            simp
          have := digitsVal_pos hxd hx0 (t := xs1)
          have h0 : digitsVal ([] : List Char) = 0 := by simp [digitsVal]
          rw [hxy, h0] at this
          omega
        · subst hx hy
          have goal := ih (y :: ys1)
            (by
              simp only [List.all_append] at hsd
              exact (Bool.and_eq_true _ _ |>.mp hsd).1)
            (by
              simp only [List.all_append] at hod
              exact (Bool.and_eq_true _ _ |>.mp hod).1)
            (by simp) (by simp)
            (by
              rcases hx1 : xs1 with _ | ⟨a, b⟩
              · exact (noLeadZero_cons x []).mpr (Or.inr rfl)
              · refine (noLeadZero_cons x (a :: b)).mpr (Or.inl ?_)
                apply noLeadZero_head hsz
                simp [hx1])
            (by
              rcases hy1 : ys1 with _ | ⟨a, b⟩
              · exact (noLeadZero_cons y []).mpr (Or.inr rfl)
              · refine (noLeadZero_cons y (a :: b)).mpr (Or.inl ?_)
                apply noLeadZero_head hoz
                simp [hy1])
            hxy
          exact congrArg (· ++ [c]) goal

/-! ## `ParseUint` characterisation and canonicity -/

theorem parseUint64_some_iff {s : List Char} {n : Nat} :
    parseUint64 s = some n ↔
      s ≠ [] ∧ s.all Char.isDigit = true ∧ digitsVal s = n ∧ n < u64Mod := by
  unfold parseUint64
  split_ifs with h1 h2
  · simp only [Option.some.injEq]
    constructor
    · intro h; exact ⟨h1.1, h1.2, h, h ▸ h2⟩
    · intro h; exact h.2.2.1
  · simp only [false_iff]
    intro h
    rw [h.2.2.1] at h2
    exact h2 h.2.2.2
  · simp only [false_iff]
    intro h
    exact h1 ⟨h.1, h.2.1⟩

theorem parseUint64_inj {s o : List Char} {n : Nat}
    (hs : parseUint64 s = some n) (ho : parseUint64 o = some n)
    (hsz : noLeadZero s = true) (hoz : noLeadZero o = true) : s = o := by
  rw [parseUint64_some_iff] at hs ho
  exact digits_inj s o hs.2.1 ho.2.1 hs.1 ho.1 hsz hoz
    (hs.2.2.1.trans ho.2.2.1.symm)

/-! ## Go string comparison is a strict total order -/

theorem goStrGt_irrefl : ∀ s : List Char, goStrGt s s = false := by
  intro s
  induction s with
  | nil => rfl
  | cons a t ih => simp [goStrGt, ih]

theorem goStrGt_asym : ∀ s o : List Char, goStrGt s o = true → goStrGt o s = false := by
  intro s
  induction s with
  | nil => intro o h; simp [goStrGt] at h
  | cons a t ih =>
    intro o h
    cases o with
    | nil => simp [goStrGt]
    | cons b u =>
      simp only [goStrGt] at h ⊢
      by_cases hab : a = b
      · have hba : b = a := hab.symm
        rw [if_pos hab] at h
        rw [if_pos hba]
        exact ih u h
      · have hba : ¬ b = a := fun hh => hab hh.symm
        rw [if_neg hab] at h
        rw [if_neg hba]
        simp at h ⊢
        omega

theorem goStrGt_total_ne : ∀ s o : List Char, s ≠ o →
    goStrGt s o = true ∨ goStrGt o s = true := by
  intro s
  induction s with
  | nil =>
    intro o h
    cases o with
    | nil => exact absurd rfl h
    | cons b u => right; rfl
  | cons a t ih =>
    intro o h
    cases o with
    | nil => left; rfl
    | cons b u =>
      by_cases hab : a = b
      · subst hab
        have htu : t ≠ u := fun hh => h (by rw [hh])
        rcases ih u htu with h1 | h1
        · left; simp [goStrGt, h1]
        · right; simp [goStrGt, h1]
      · have hba : ¬ b = a := fun hh => hab hh.symm
        have hnat : a.toNat ≠ b.toNat := fun hh => hab (char_toNat_inj hh)
        simp only [goStrGt, if_neg hab, if_neg hba]
        simp
        omega

theorem goStrGt_trans : ∀ a b c : List Char,
    goStrGt a b = true → goStrGt b c = true → goStrGt a c = true := by
  intro a
  induction a with
  | nil => intro b c h1 _; simp [goStrGt] at h1
  | cons x xs ih =>
    intro b c h1 h2
    cases b with
    | nil => simp [goStrGt] at h2
    | cons y ys =>
      cases c with
      | nil => rfl
      | cons z zs =>
        simp only [goStrGt] at h1 h2 ⊢
        by_cases hxy : x = y <;> by_cases hyz : y = z
        · have hxz : x = z := hxy.trans hyz
          rw [if_pos hxy] at h1
          rw [if_pos hyz] at h2
          rw [if_pos hxz]
          exact ih ys zs h1 h2
        · have hxz : ¬ x = z := fun hh => hyz (hxy.symm.trans hh)
          rw [if_pos hxy] at h1
          rw [if_neg hyz] at h2
          rw [if_neg hxz]
          simp at h2 ⊢
          rw [hxy]
          exact h2
        · have hxz : ¬ x = z := fun hh => hxy (hh.trans hyz.symm)
          rw [if_neg hxy] at h1
          rw [if_neg hxz]
          simp at h1 ⊢
          rw [← hyz]
          exact h1
        · have hzy : z.toNat < y.toNat := by
            rw [if_neg hyz] at h2; simpa using h2
          have hyx : y.toNat < x.toNat := by
            rw [if_neg hxy] at h1; simpa using h1
          have hxz : ¬ x = z := by
            intro hh
            rw [hh] at hyx
            omega
          rw [if_neg hxz]
          simp
          omega

/-! ## `comparePrePart` on validated identifiers -/

theorem comparePrePart_self (s : List Char) : comparePrePart s s = 0 := by
  simp [comparePrePart]

theorem comparePrePart_nil_left {o : List Char} (ho : o ≠ []) :
    comparePrePart [] o = -1 := by
  unfold comparePrePart
  rw [if_neg (fun h => ho h.symm), if_pos rfl, if_pos ho]

theorem comparePrePart_nil_right {s : List Char} (hs : s ≠ []) :
    comparePrePart s [] = 1 := by
  unfold comparePrePart
  rw [if_neg hs, if_neg hs, if_pos rfl, if_pos hs]

theorem comparePrePart_zero_iff {s o : List Char} :
    comparePrePart s o = 0 ↔ s = o := by
  constructor
  · intro h
    by_contra hne
    unfold comparePrePart at h
    rw [if_neg hne] at h
    by_cases hs : s = []
    · rw [if_pos hs] at h
      split_ifs at h <;> omega
    · rw [if_neg hs] at h
      by_cases ho : o = []
      · rw [if_pos ho] at h
        split_ifs at h <;> omega
      · rw [if_neg ho] at h
        rcases hpo : parseUint64 o with _ | oi <;>
          rcases hps : parseUint64 s with _ | si <;>
          rw [hpo, hps] at h <;> simp at h
        · split_ifs at h <;> omega
        · split_ifs at h <;> omega
  · intro h
    subst h
    exact comparePrePart_self s

theorem validSeg_noLeadZero {s : List Char} {n : Nat} (hv : ValidSeg s)
    (hp : parseUint64 s = some n) : noLeadZero s = true :=
  hv.2 (parseUint64_some_iff.mp hp).2.1

theorem comparePrePart_lt_iff {s o : List Char} (hs : ValidSeg s) (ho : ValidSeg o) :
    comparePrePart s o < 0 ↔
      (match parseUint64 s, parseUint64 o with
       | some a, some b => a < b
       | some _, none => True
       | none, some _ => False
       | none, none => goStrGt o s = true) := by
  by_cases hso : s = o
  · subst hso
    rw [comparePrePart_self]
    simp only [show ¬ ((0 : Int) < 0) from by omega, false_iff]
    rcases hp : parseUint64 s with _ | a <;> simp [goStrGt_irrefl]
  · unfold comparePrePart
    rw [if_neg hso, if_neg hs.1, if_neg ho.1]
    rcases hpo : parseUint64 o with _ | oi <;> rcases hps : parseUint64 s with _ | si
    · simp only []
      rcases goStrGt_total_ne s o hso with h1 | h1
      · simp [h1, goStrGt_asym _ _ h1]
      · simp [goStrGt_asym _ _ h1, h1]
    · simp
    · simp
    · have hne : si ≠ oi := by
        intro hh
        exact hso (parseUint64_inj hps (hh ▸ hpo)
          (validSeg_noLeadZero hs hps) (validSeg_noLeadZero ho hpo))
      simp only []
      split_ifs with hgt
      · constructor
        · intro h; omega
        · intro h; omega
      · constructor
        · intro _; omega
        · intro _; omega

theorem comparePrePart_sign {s o : List Char} (hs : ValidSeg s) (ho : ValidSeg o) :
    comparePrePart o s = - comparePrePart s o := by
  by_cases hso : s = o
  · subst hso
    simp [comparePrePart_self]
  · have hos : o ≠ s := fun h => hso h.symm
    unfold comparePrePart
    rw [if_neg hso, if_neg hos, if_neg hs.1, if_neg ho.1, if_neg ho.1, if_neg hs.1]
    rcases hpo : parseUint64 o with _ | oi <;> rcases hps : parseUint64 s with _ | si
    · simp only []
      rcases goStrGt_total_ne s o hso with h1 | h1
      · simp [h1, goStrGt_asym _ _ h1]
      · simp [goStrGt_asym _ _ h1, h1]
    · simp
    · simp
    · have hne : si ≠ oi := by
        intro hh
        exact hso (parseUint64_inj hps (hh ▸ hpo)
          (validSeg_noLeadZero hs hps) (validSeg_noLeadZero ho hpo))
      simp only []
      split_ifs with h1 h2 h2 <;> omega

theorem comparePrePart_trans_neg {a b c : List Char}
    (ha : ValidSeg a) (hb : ValidSeg b) (hc : ValidSeg c)
    (h1 : comparePrePart a b < 0) (h2 : comparePrePart b c < 0) :
    comparePrePart a c < 0 := by
  rw [comparePrePart_lt_iff ha hb] at h1
  rw [comparePrePart_lt_iff hb hc] at h2
  rw [comparePrePart_lt_iff ha hc]
  rcases hpa : parseUint64 a with _ | ai <;> rcases hpb : parseUint64 b with _ | bi <;>
    rcases hpc : parseUint64 c with _ | ci <;>
    simp only [hpa, hpb, hpc] at h1 h2 ⊢
  all_goals first
    | trivial
    | omega
    | exact goStrGt_trans c b a h2 h1

/-! ## The `comparePrerelease` loop on validated part lists -/

theorem prePartsCmp_self : ∀ l, prePartsCmp l l = 0 := by
  intro l
  induction l with
  | nil => simp [prePartsCmp]
  | cons s t ih => simp [prePartsCmp, comparePrePart_self, ih]

theorem prePartsCmp_zero_iff : ∀ as bs : List (List Char),
    (∀ p ∈ as, ValidSeg p) → (∀ p ∈ bs, ValidSeg p) →
    (prePartsCmp as bs = 0 ↔ as = bs) := by
  intro as
  induction as with
  | nil =>
    intro bs _ hvb
    cases bs with
    | nil => simp [prePartsCmp]
    | cons o os =>
      have hc := comparePrePart_nil_left (hvb o (by simp)).1
      simp [prePartsCmp, hc]
  | cons s ss ih =>
    intro bs hva hvb
    cases bs with
    | nil =>
      have hc := comparePrePart_nil_right (hva s (by simp)).1
      simp [prePartsCmp, hc]
    | cons o os =>
      by_cases hd : comparePrePart s o = 0
      · have hse : s = o := comparePrePart_zero_iff.mp hd
        subst hse
        have hrec := ih os (fun p hp => hva p (List.mem_cons_of_mem _ hp))
          (fun p hp => hvb p (List.mem_cons_of_mem _ hp))
        simp [prePartsCmp, comparePrePart_self, hrec]
      · constructor
        · intro h
          simp [prePartsCmp, hd] at h
        · intro h
          have hse : s = o := by injection h
          exact absurd (comparePrePart_zero_iff.mpr hse) hd

theorem prePartsCmp_sign : ∀ as bs : List (List Char),
    (∀ p ∈ as, ValidSeg p) → (∀ p ∈ bs, ValidSeg p) →
    prePartsCmp bs as = - prePartsCmp as bs := by
  intro as
  induction as with
  | nil =>
    intro bs _ hvb
    cases bs with
    | nil => simp [prePartsCmp]
    | cons o os =>
      have h1 := comparePrePart_nil_left (hvb o (by simp)).1
      have h2 := comparePrePart_nil_right (hvb o (by simp)).1
      simp [prePartsCmp, h1, h2]
  | cons s ss ih =>
    intro bs hva hvb
    cases bs with
    | nil =>
      have h1 := comparePrePart_nil_left (hva s (by simp)).1
      have h2 := comparePrePart_nil_right (hva s (by simp)).1
      simp [prePartsCmp, h1, h2]
    | cons o os =>
      have hsign := comparePrePart_sign (hva s (by simp)) (hvb o (by simp))
      by_cases hd : comparePrePart s o = 0
      · have hd2 : comparePrePart o s = 0 := by rw [hsign, hd]; ring
        have hrec := ih os (fun p hp => hva p (List.mem_cons_of_mem _ hp))
          (fun p hp => hvb p (List.mem_cons_of_mem _ hp))
        simp [prePartsCmp, hd, hd2, hrec]
      · have hd2 : comparePrePart o s ≠ 0 := by
          rw [hsign]
          omega
        simp [prePartsCmp, hd, hd2, hsign]

theorem prePartsCmp_trans_neg : ∀ as bs cs : List (List Char),
    (∀ p ∈ as, ValidSeg p) → (∀ p ∈ bs, ValidSeg p) → (∀ p ∈ cs, ValidSeg p) →
    prePartsCmp as bs < 0 → prePartsCmp bs cs < 0 → prePartsCmp as cs < 0 := by
  intro as
  induction as with
  | nil =>
    intro bs cs _ hvb hvc h1 h2
    cases bs with
    | nil => simp [prePartsCmp] at h1
    | cons b bs1 =>
      cases cs with
      | nil =>
        have hc := comparePrePart_nil_right (hvb b (by simp)).1
        simp [prePartsCmp, hc] at h2
      | cons c cs1 =>
        have hc := comparePrePart_nil_left (hvc c (by simp)).1
        simp [prePartsCmp, hc]
  | cons a as1 ih =>
    intro bs cs hva hvb hvc h1 h2
    cases bs with
    | nil =>
      have hc := comparePrePart_nil_right (hva a (by simp)).1
      simp [prePartsCmp, hc] at h1
    | cons b bs1 =>
      cases cs with
      | nil =>
        have hc := comparePrePart_nil_right (hvb b (by simp)).1
        simp [prePartsCmp, hc] at h2
      | cons c cs1 =>
        by_cases hab : comparePrePart a b = 0
        · have hael : a = b := comparePrePart_zero_iff.mp hab
          subst hael
          simp only [prePartsCmp, comparePrePart_self, ne_eq, not_true_eq_false,
            if_false, reduceIte] at h1
          by_cases hac : comparePrePart a c = 0
          · have hael2 : a = c := comparePrePart_zero_iff.mp hac
            subst hael2
            simp only [prePartsCmp, comparePrePart_self, ne_eq, not_true_eq_false,
              if_false, reduceIte] at h2 ⊢
            exact ih bs1 cs1 (fun p hp => hva p (List.mem_cons_of_mem _ hp))
              (fun p hp => hvb p (List.mem_cons_of_mem _ hp))
              (fun p hp => hvc p (List.mem_cons_of_mem _ hp)) h1 h2
          · simp [prePartsCmp, hac] at h2 ⊢
            exact h2
        · have hab_lt : comparePrePart a b < 0 := by
            simp [prePartsCmp, hab] at h1
            exact h1
          by_cases hbc : comparePrePart b c = 0
          · have hbel : b = c := comparePrePart_zero_iff.mp hbc
            subst hbel
            simp [prePartsCmp, hab]
            exact hab_lt
          · have hbc_lt : comparePrePart b c < 0 := by
              simp [prePartsCmp, hbc] at h2
              exact h2
            have hac := comparePrePart_trans_neg (hva a (by simp))
              (hvb b (by simp)) (hvc c (by simp)) hab_lt hbc_lt
            have hac_ne : comparePrePart a c ≠ 0 := by omega
            simp [prePartsCmp, hac_ne]
            exact hac

/-! ## `splitDot` / `joinDot` -/

theorem splitDot_ne_nil (s : List Char) : splitDot s ≠ [] := by
  cases s with
  | nil => simp [splitDot]
  | cons a t =>
    by_cases ha : a = '.'
    · simp [splitDot, ha]
    · simp only [splitDot, if_neg ha]
      rcases hs : splitDot t with _ | ⟨x, xs⟩
      · simp
      · simp

theorem splitDot_no_dot : ∀ c : List Char, (∀ x ∈ c, x ≠ '.') → splitDot c = [c] := by
  intro c
  induction c with
  | nil => intro _; rfl
  | cons a t ih =>
    intro h
    have ha : a ≠ '.' := h a (by simp)
    have ht := ih (fun x hx => h x (List.mem_cons_of_mem _ hx))
    simp only [splitDot, if_neg ha, ht]

theorem splitDot_append_dot : ∀ (c t : List Char), (∀ x ∈ c, x ≠ '.') →
    splitDot (c ++ '.' :: t) = c :: splitDot t := by
  intro c
  induction c with
  | nil => intro t _; simp [splitDot]
  | cons a c1 ih =>
    intro t h
    have ha : a ≠ '.' := h a (by simp)
    have ht := ih t (fun x hx => h x (List.mem_cons_of_mem _ hx))
    simp only [List.cons_append, splitDot, if_neg ha, List.append_eq, ht]

theorem splitDot_joinDot : ∀ cs : List (List Char), cs ≠ [] →
    (∀ c ∈ cs, ∀ x ∈ c, x ≠ '.') → splitDot (joinDot cs) = cs := by
  intro cs
  induction cs with
  | nil => intro h _; exact absurd rfl h
  | cons c cs1 ih =>
    intro _ h
    cases cs1 with
    | nil =>
      simp only [joinDot]
      exact splitDot_no_dot c (h c (by simp))
    | cons c2 cs2 =>
      have hj : joinDot (c :: c2 :: cs2) = c ++ '.' :: joinDot (c2 :: cs2) := rfl
      rw [hj, splitDot_append_dot c _ (h c (by simp))]
      rw [ih (by simp) (fun d hd x hx => h d (List.mem_cons_of_mem _ hd) x hx)]

theorem joinDot_splitDot : ∀ s : List Char, joinDot (splitDot s) = s := by
  intro s
  induction s with
  | nil => rfl
  | cons a t ih =>
    by_cases ha : a = '.'
    · subst ha
      have h0 : splitDot ('.' :: t) = [] :: splitDot t := by simp [splitDot]
      rcases hs : splitDot t with _ | ⟨s1, ss⟩
      · exact absurd hs (splitDot_ne_nil t)
      · rw [h0, hs]
        have h1 : joinDot ([] :: s1 :: ss) = [] ++ '.' :: joinDot (s1 :: ss) := rfl
        rw [h1]
        rw [hs] at ih
        simp [ih]
    · simp only [splitDot, if_neg ha]
      rcases hs : splitDot t with _ | ⟨s1, ss⟩
      · exact absurd hs (splitDot_ne_nil t)
      · rw [hs] at ih
        cases ss with
        | nil =>
          simp only [joinDot] at ih ⊢
          rw [ih]
        | cons s2 ss2 =>
          have h1 : joinDot ((a :: s1) :: s2 :: ss2)
              = (a :: s1) ++ '.' :: joinDot (s2 :: ss2) := rfl
          have h2 : joinDot (s1 :: s2 :: ss2) = s1 ++ '.' :: joinDot (s2 :: ss2) := rfl
          rw [h1]
          rw [h2] at ih
          simp [ih]

theorem splitDot_inj {s o : List Char} (h : splitDot s = splitDot o) : s = o := by
  rw [← joinDot_splitDot s, ← joinDot_splitDot o, h]

/-! ## The pre-release block of `Compare` -/

theorem preCmpBlock_self (p : List Char) : preCmpBlock p p = 0 := by
  by_cases hp : p = [] <;>
    simp [preCmpBlock, hp, comparePrerelease, prePartsCmp_self]

theorem preCmpBlock_zero_iff {p q : List Char}
    (hp : p ≠ [] → ∀ s ∈ splitDot p, ValidSeg s)
    (hq : q ≠ [] → ∀ s ∈ splitDot q, ValidSeg s) :
    preCmpBlock p q = 0 ↔ p = q := by
  by_cases h1 : p = [] <;> by_cases h2 : q = []
  · subst h1; subst h2; simp [preCmpBlock]
  · subst h1
    simp [preCmpBlock, h2, Ne.symm h2]
  · subst h2
    simp [preCmpBlock, h1]
  · simp only [preCmpBlock, comparePrerelease, h1, h2, and_false, if_false,
      false_and, if_neg h1, if_neg h2]
    rw [prePartsCmp_zero_iff (splitDot p) (splitDot q) (hp h1) (hq h2)]
    constructor
    · exact fun h => splitDot_inj h
    · intro h; rw [h]

theorem preCmpBlock_sign {p q : List Char}
    (hp : p ≠ [] → ∀ s ∈ splitDot p, ValidSeg s)
    (hq : q ≠ [] → ∀ s ∈ splitDot q, ValidSeg s) :
    preCmpBlock q p = - preCmpBlock p q := by
  by_cases h1 : p = [] <;> by_cases h2 : q = [] <;>
    simp [preCmpBlock, h1, h2, comparePrerelease]
  exact prePartsCmp_sign (splitDot p) (splitDot q) (hp h1) (hq h2)

theorem preCmpBlock_trans_neg {p q r : List Char}
    (hp : p ≠ [] → ∀ s ∈ splitDot p, ValidSeg s)
    (hq : q ≠ [] → ∀ s ∈ splitDot q, ValidSeg s)
    (hr : r ≠ [] → ∀ s ∈ splitDot r, ValidSeg s)
    (ha : preCmpBlock p q < 0) (hb : preCmpBlock q r < 0) :
    preCmpBlock p r < 0 := by
  by_cases h1 : p = [] <;> by_cases h2 : q = [] <;> by_cases h3 : r = [] <;>
    simp only [preCmpBlock, comparePrerelease, h1, h2, h3, and_self, and_false,
      false_and, if_true, if_false, not_true, not_false_iff, reduceIte] at ha hb ⊢
  all_goals try omega
  exact prePartsCmp_trans_neg (splitDot p) (splitDot q) (splitDot r)
    (hp h1) (hq h2) (hr h3) ha hb

/-! ## `Compare` is a total preorder on parsed versions -/

theorem semverCompare_self (v : SemVersion) : semverCompare v v = 0 := by
  simp [semverCompare, compareSegment, preCmpBlock_self]

theorem semverCompare_lt_iff {v o : SemVersion} :
    semverCompare v o < 0 ↔
      (v.major < o.major ∨ (v.major = o.major ∧
        (v.minor < o.minor ∨ (v.minor = o.minor ∧
          (v.patch < o.patch ∨ (v.patch = o.patch ∧
            preCmpBlock v.pre o.pre < 0)))))) := by
  unfold semverCompare compareSegment
  split_ifs <;> omega

theorem comparePrePart_values (s o : List Char) :
    comparePrePart s o = -1 ∨ comparePrePart s o = 0 ∨ comparePrePart s o = 1 := by
  unfold comparePrePart
  split_ifs <;> try omega
  all_goals
    rcases hpo : parseUint64 o with _ | oi <;> rcases hps : parseUint64 s with _ | si <;>
      simp only [] <;> first
        | (split_ifs <;> omega)
        | simp
        | omega

theorem prePartsCmp_values : ∀ as bs : List (List Char),
    prePartsCmp as bs = -1 ∨ prePartsCmp as bs = 0 ∨ prePartsCmp as bs = 1 := by
  intro as
  induction as with
  | nil =>
    intro bs
    induction bs with
    | nil => simp [prePartsCmp]
    | cons o os ihb =>
      have hd := comparePrePart_values [] o
      by_cases h : comparePrePart [] o = 0
      · simp [prePartsCmp, h]
        exact ihb
      · simp [prePartsCmp, h]
        omega
  | cons s ss ih =>
    intro bs
    cases bs with
    | nil =>
      have hd := comparePrePart_values s []
      by_cases h : comparePrePart s [] = 0
      · simp [prePartsCmp, h]
        exact ih []
      · simp [prePartsCmp, h]
        omega
    | cons o os =>
      have hd := comparePrePart_values s o
      by_cases h : comparePrePart s o = 0
      · simp [prePartsCmp, h]
        exact ih os
      · simp [prePartsCmp, h]
        omega

theorem preCmpBlock_values (p q : List Char) :
    preCmpBlock p q = -1 ∨ preCmpBlock p q = 0 ∨ preCmpBlock p q = 1 := by
  unfold preCmpBlock
  split_ifs <;> first
    | omega
    | exact prePartsCmp_values (splitDot p) (splitDot q)

theorem semverCompare_zero_iff {v o : SemVersion} :
    semverCompare v o = 0 ↔
      (v.major = o.major ∧ v.minor = o.minor ∧ v.patch = o.patch ∧
       preCmpBlock v.pre o.pre = 0) := by
  unfold semverCompare compareSegment
  split_ifs <;> (try simp only [false_iff, iff_false, true_iff, iff_true]) <;> omega

theorem semverCompare_values (v o : SemVersion) :
    semverCompare v o = -1 ∨ semverCompare v o = 0 ∨ semverCompare v o = 1 := by
  have hb := preCmpBlock_values v.pre o.pre
  unfold semverCompare compareSegment
  split_ifs <;> omega

theorem semverCompare_sign {v o : SemVersion} (hv : PVal v) (ho : PVal o) :
    semverCompare o v = - semverCompare v o := by
  have hbs := preCmpBlock_sign hv ho
  have h1 := semverCompare_values v o
  have h2 := semverCompare_values o v
  have hlt1 := semverCompare_lt_iff (v := v) (o := o)
  have hlt2 := semverCompare_lt_iff (v := o) (o := v)
  have hz1 := semverCompare_zero_iff (v := v) (o := o)
  have hz2 := semverCompare_zero_iff (v := o) (o := v)
  omega

theorem semverCompare_zero_eq {v o : SemVersion} (hv : PVal v) (ho : PVal o)
    (h : semverCompare v o = 0) :
    v.major = o.major ∧ v.minor = o.minor ∧ v.patch = o.patch ∧ v.pre = o.pre := by
  rw [semverCompare_zero_iff] at h
  exact ⟨h.1, h.2.1, h.2.2.1, (preCmpBlock_zero_iff hv ho).mp h.2.2.2⟩

theorem semverCompare_congr_left {v w o : SemVersion}
    (h1 : v.major = w.major) (h2 : v.minor = w.minor) (h3 : v.patch = w.patch)
    (h4 : v.pre = w.pre) : semverCompare v o = semverCompare w o := by
  unfold semverCompare
  rw [h1, h2, h3, h4]

theorem semverCompare_trans_neg {a b c : SemVersion}
    (ha : PVal a) (hb : PVal b) (hc : PVal c)
    (h1 : semverCompare a b < 0) (h2 : semverCompare b c < 0) :
    semverCompare a c < 0 := by
  rw [semverCompare_lt_iff] at h1 h2 ⊢
  rcases h1 with h1a | ⟨e11, h1a | ⟨e12, h1a | ⟨e13, h1p⟩⟩⟩ <;>
    rcases h2 with h2a | ⟨e21, h2a | ⟨e22, h2a | ⟨e23, h2p⟩⟩⟩ <;>
    try omega
  have := preCmpBlock_trans_neg ha hb hc h1p h2p
  omega

/-! ## The sort order used by `currentVersion` -/

theorem goLe_true_iff {x y : SemVersion} :
    goLe x y = true ↔ ¬ (semverCompare y x < 0) := by
  simp [goLe, semverLessThan]

theorem goLe_refl (x : SemVersion) : goLe x x = true := by
  rw [goLe_true_iff, semverCompare_self]
  omega

theorem goLe_total {x y : SemVersion} (hx : PVal x) (hy : PVal y) :
    goLe x y = true ∨ goLe y x = true := by
  rw [goLe_true_iff, goLe_true_iff]
  have hs := semverCompare_sign hx hy
  omega

theorem goLe_trans {x y z : SemVersion} (hx : PVal x) (hy : PVal y) (hz : PVal z)
    (h1 : goLe x y = true) (h2 : goLe y z = true) : goLe x z = true := by
  rw [goLe_true_iff] at h1 h2 ⊢
  intro hzx
  rcases lt_trichotomy (semverCompare z y) 0 with hzy | hzy | hzy
  · exact h2 hzy
  · obtain ⟨e1, e2, e3, e4⟩ := semverCompare_zero_eq hz hy hzy
    rw [semverCompare_congr_left e1 e2 e3 e4] at hzx
    exact h1 hzx
  · have hsign := semverCompare_sign hy hz
    have hyz : semverCompare y z < 0 := by omega
    exact h1 (semverCompare_trans_neg hy hz hx hyz hzx)

theorem insertSorted_perm (x : SemVersion) :
    ∀ l, (insertSorted x l).Perm (x :: l) := by
  intro l
  induction l with
  | nil => exact List.Perm.refl _
  | cons y ys ih =>
    simp only [insertSorted]
    by_cases h : goLe x y = true
    · rw [if_pos h]
    · rw [if_neg h]
      exact (List.Perm.cons y ih).trans (List.Perm.swap x y ys)

theorem sortGo_perm : ∀ l, (sortGo l).Perm l := by
  intro l
  induction l with
  | nil => exact List.Perm.refl _
  | cons a t ih =>
    exact (insertSorted_perm a (sortGo t)).trans (List.Perm.cons a ih)

theorem insertSorted_pairwise {x : SemVersion} {l : List SemVersion}
    (hvx : PVal x) (hvl : ∀ y ∈ l, PVal y)
    (hp : l.Pairwise (fun a b => goLe a b = true)) :
    (insertSorted x l).Pairwise (fun a b => goLe a b = true) := by
  induction l with
  | nil => simp [insertSorted]
  | cons y ys ih =>
    rw [List.pairwise_cons] at hp
    obtain ⟨hy_all, hp_ys⟩ := hp
    simp only [insertSorted]
    by_cases h : goLe x y = true
    · rw [if_pos h]
      refine List.Pairwise.cons ?_ (List.Pairwise.cons hy_all hp_ys)
      intro z hz
      rcases List.mem_cons.mp hz with rfl | hz1
      · exact h
      · exact goLe_trans hvx (hvl y (by simp)) (hvl z (by simp [hz1])) h
          (hy_all z hz1)
    · rw [if_neg h]
      have hyx : goLe y x = true :=
        (goLe_total hvx (hvl y (by simp))).resolve_left h
      refine List.Pairwise.cons ?_
        (ih (fun p hp1 => hvl p (by simp [hp1])) hp_ys)
      intro z hz
      have hz2 : z ∈ x :: ys := (insertSorted_perm x ys).subset hz
      rcases List.mem_cons.mp hz2 with rfl | hz1
      · exact hyx
      · exact hy_all z hz1

theorem sortGo_pairwise {l : List SemVersion} (hv : ∀ y ∈ l, PVal y) :
    (sortGo l).Pairwise (fun a b => goLe a b = true) := by
  induction l with
  | nil => simp [sortGo]
  | cons a t ih =>
    have h1 : sortGo (a :: t) = insertSorted a (sortGo t) := rfl
    rw [h1]
    refine insertSorted_pairwise (hv a (by simp)) ?_
      (ih (fun y hy => hv y (by simp [hy])))
    intro y hy
    exact hv y (by simp [(sortGo_perm t).subset hy])

theorem getLast?_max {l : List SemVersion} (hne : l ≠ [])
    (hp : l.Pairwise (fun a b => goLe a b = true)) :
    ∃ m, l.getLast? = some m ∧ m ∈ l ∧ ∀ x ∈ l, goLe x m = true := by
  induction l with
  | nil => exact absurd rfl hne
  | cons a t ih =>
    cases t with
    | nil =>
      refine ⟨a, rfl, by simp, ?_⟩
      intro x hx
      rcases List.mem_cons.mp hx with rfl | hx1
      · exact goLe_refl x
      · simp at hx1
    | cons b u =>
      rw [List.pairwise_cons] at hp
      obtain ⟨ha_all, hp1⟩ := hp
      obtain ⟨m, hm1, hm2, hm3⟩ := ih (by simp) hp1
      refine ⟨m, ?_, by simp [hm2], ?_⟩
      · rw [List.getLast?_cons_cons]
        exact hm1
      · intro x hx
        rcases List.mem_cons.mp hx with rfl | hx1
        · exact ha_all m hm2
        · exact hm3 x hx1

/-! ## Parsed versions have well-formed pre-release identifiers -/

theorem chunkLoopCore_chunks : ∀ (fuel : Nat) (r : List Char),
    ∀ c ∈ (chunkLoopCore fuel r).1, c ≠ [] ∧ c.all allowedChar = true := by
  intro fuel
  induction fuel with
  | zero => intro r c hc; simp [chunkLoopCore] at hc
  | succ m ih =>
    intro r c hc
    cases r with
    | nil => simp [chunkLoopCore] at hc
    | cons a rest =>
      by_cases ha : a = '.'
      · rcases hrec : chunkLoopCore m (rest.dropWhile allowedChar) with ⟨cs1, rr1⟩
        by_cases h0 : rest.takeWhile allowedChar = []
        · simp [chunkLoopCore, ha, h0] at hc
        · simp only [chunkLoopCore, if_pos ha, if_neg h0, hrec] at hc
          rcases List.mem_cons.mp hc with rfl | hc1
          · refine ⟨h0, ?_⟩
            rw [List.all_eq_true]
            intro x hx
            exact List.mem_takeWhile_imp hx
          · have := ih (rest.dropWhile allowedChar) c
            rw [hrec] at this
            exact this hc1
      · simp [chunkLoopCore, ha] at hc

theorem chunkSeq_chunks {r : List Char} {cs : List (List Char)} {rr : List Char}
    (h : chunkSeq r = some (cs, rr)) :
    cs ≠ [] ∧ ∀ c ∈ cs, c ≠ [] ∧ c.all allowedChar = true := by
  unfold chunkSeq at h
  by_cases h0 : r.takeWhile allowedChar = []
  · simp [h0] at h
  · rcases hrec : chunkLoopCore r.length (r.dropWhile allowedChar) with ⟨cs1, rr1⟩
    simp only [h0, if_false, hrec, Option.some.injEq, Prod.mk.injEq, reduceIte] at h
    obtain ⟨h1, _⟩ := h
    subst h1
    refine ⟨by simp, ?_⟩
    intro c hc
    rcases List.mem_cons.mp hc with rfl | hc1
    · refine ⟨h0, ?_⟩
      rw [List.all_eq_true]
      intro x hx
      exact List.mem_takeWhile_imp hx
    · have := chunkLoopCore_chunks r.length (r.dropWhile allowedChar) c
      rw [hrec] at this
      exact this hc1

theorem matchMarkedChunks_some {mark : Char} {r : List Char}
    {cs : List (List Char)} {rr : List Char}
    (h : matchMarkedChunks mark r = (some cs, rr)) :
    cs ≠ [] ∧ ∀ c ∈ cs, c ≠ [] ∧ c.all allowedChar = true := by
  unfold matchMarkedChunks at h
  cases r with
  | nil => simp at h
  | cons c0 rest =>
    by_cases hc : c0 = mark
    · rcases hcs : chunkSeq rest with _ | ⟨cs1, rr1⟩ <;>
        simp only [hc, if_true, hcs, reduceIte] at h
      · simp at h
      · obtain ⟨h1, _⟩ := Prod.mk.injEq .. |>.mp h
        rw [Option.some.injEq] at h1
        subst h1
        exact chunkSeq_chunks hcs
    · simp [hc] at h

theorem regexMatch_pre {s : List Char} {m : RegexGroups} {cs : List (List Char)}
    (h : regexMatch s = some m) (hc : m.preChunks = some cs) :
    cs ≠ [] ∧ ∀ c ∈ cs, c ≠ [] ∧ c.all allowedChar = true := by
  simp only [regexMatch] at h
  by_cases h1 : (stripV s).takeWhile Char.isDigit = []
  · simp [h1] at h
  · rw [if_neg h1] at h
    rcases h2 : matchDotDigits ((stripV s).dropWhile Char.isDigit) with ⟨m2v, r2v⟩
    rw [h2] at h
    rcases h3 : matchDotDigits r2v with ⟨m3v, r3v⟩
    rw [h3] at h
    rcases h4 : matchMarkedChunks '-' r3v with ⟨prev, r4v⟩
    rw [h4] at h
    rcases h5 : matchMarkedChunks '+' r4v with ⟨metav, r5v⟩
    rw [h5] at h
    by_cases h6 : r5v = []
    · rw [if_pos h6, Option.some.injEq] at h
      subst h
      simp only [] at hc
      subst hc
      exact matchMarkedChunks_some h4
    · rw [if_neg h6] at h
      exact absurd h (by simp)

theorem parse_PVal {s : List Char} {v : SemVersion}
    (h : semverNewVersion s = some v) : PVal v := by
  unfold semverNewVersion at h
  rcases hm : regexMatch s with _ | m
  · simp [hm] at h
  simp only [hm] at h
  rcases hma : parseUint64 m.m1 with _ | ma
  · simp [hma] at h
  simp only [hma] at h
  rcases hmi : (match m.m2 with | none => some 0 | some d => parseUint64 d) with _ | mi
  · simp only [hmi] at h; exact absurd h (by simp)
  simp only [hmi] at h
  rcases hpa : (match m.m3 with | none => some 0 | some d => parseUint64 d) with _ | pa
  · simp only [hpa] at h; exact absurd h (by simp)
  simp only [hpa] at h
  by_cases hv1 : (match m.preChunks with | none => [] | some cs => joinDot cs) ≠ [] ∧
      ¬ validatePre (match m.preChunks with | none => [] | some cs => joinDot cs)
  · rw [if_pos hv1] at h; exact absurd h (by simp)
  rw [if_neg hv1] at h
  by_cases hv2 : (match m.metaChunks with | none => [] | some cs => joinDot cs) ≠ [] ∧
      ¬ validateMeta (match m.metaChunks with | none => [] | some cs => joinDot cs)
  · rw [if_pos hv2] at h; exact absurd h (by simp)
  rw [if_neg hv2, Option.some.injEq] at h
  subst h
  intro hne p hp
  simp only [] at hne hp
  rcases hcs : m.preChunks with _ | cs
  · rw [hcs] at hne
    simp at hne
  rw [hcs] at hne hp hv1
  obtain ⟨hcs_ne, hcs_all⟩ := regexMatch_pre hm hcs
  have hnodot : ∀ c ∈ cs, ∀ x ∈ c, x ≠ '.' := by
    intro c hc x hx h
    have := (hcs_all c hc).2
    rw [List.all_eq_true] at this
    have hx2 := this x hx
    rw [h] at hx2
    exact absurd hx2 (by decide)
  have hsplit : splitDot (joinDot cs) = cs := splitDot_joinDot cs hcs_ne hnodot
  have hval : validatePre (joinDot cs) = true := by
    by_contra hnv
    exact hv1 ⟨hne, fun hh => hnv (by simpa using hh)⟩
  rw [hsplit] at hp
  refine ⟨(hcs_all p hp).1, ?_⟩
  intro hdig
  have hok : preSegOK p = true := by
    unfold validatePre at hval
    rw [hsplit, List.all_eq_true] at hval
    exact hval p hp
  unfold preSegOK at hok
  rw [if_pos hdig] at hok
  exact hok

/-! ## Claims -/

/-- C1: the code does not realise the claimed behaviour.  The slice
built by the scan (lines 196-203) keeps a `nil` slot for every
unparseable tag instead of excluding it, and no `NoVersionsFound`
condition exists anywhere: a sole unparseable tag yields a `nil`
current version with a `nil` error (the caller then dereferences the
`nil` and panics), an empty tag list panics on `vs[len(vs)-1]`, and a
mix of parseable and unparseable tags panics inside the sort. -/
theorem c1_scan_nil_holes_eval :
    semverNewVersion ("foo".toList) = none ∧
    versionSlice ["foo".toList] = [none] ∧
    currentVersionGo ["foo".toList] = .ok none ∧
    currentVersionGo [] = .crash ∧
    versionSlice ["v1.0.0".toList, "bar".toList]
      = [some ⟨1, 0, 0, [], [], "v1.0.0".toList⟩, none] ∧
    currentVersionGo ["v1.0.0".toList, "bar".toList] = .crash := by decide

/-- C2: counterexample — with flags {Major, Patch} declared, the menu
offered is `[Major, Patch]` (the order in which lines 236-244 append
the declared kinds), not the `[Patch, Major]` the claim requires. -/
theorem c2_counterexample :
    (nextVersionGo chooseFirst optsMajorPatch v123).prompt
      = some (promptLabel ("v1.2.3".toList), [BumpSpec.Major, BumpSpec.Patch]) ∧
    [BumpSpec.Major, BumpSpec.Patch] ≠ [BumpSpec.Patch, BumpSpec.Major] := by
  decide

/-- C2 (amended): with two or more bump-kind flags declared, the
disambiguation menu contains exactly the declared kinds, in the
relative order Major before Minor before Patch. -/
theorem c2_menu_amended
    (choose : List Char → (items : List BumpSpec) → Except Unit (Fin items.length))
    (opt : GoOptions) (current : SemVersion)
    (h : 2 ≤ (specsOf opt).length) :
    (nextVersionGo choose opt current).prompt
      = some (promptLabel (semverOriginal current), specsOf opt) ∧
    (∀ s, s ∈ specsOf opt ↔ declares opt s = true) ∧
    specsOf opt
      = [BumpSpec.Major, BumpSpec.Minor, BumpSpec.Patch].filter (declares opt) := by
  refine ⟨?_, ?_, ?_⟩
  · rcases hs : specsOf opt with _ | ⟨s0, _ | ⟨s1, rest⟩⟩
    · rw [hs] at h; simp at h
    · rw [hs] at h; simp at h
    · simp only [nextVersionGo, hs]
      cases choose (promptLabel (semverOriginal current)) (s0 :: s1 :: rest) <;> rfl
  · intro s
    obtain ⟨ma, mi, pa, q⟩ := opt
    cases ma <;> cases mi <;> cases pa <;> cases s <;> simp [specsOf, declares]
  · obtain ⟨ma, mi, pa, q⟩ := opt
    cases ma <;> cases mi <;> cases pa <;> rfl

/-- C2 witness: the amended menu behaviour at flags {Major, Patch}. -/
theorem c2_menu_amended_witness :
    2 ≤ (specsOf optsMajorPatch).length ∧
    (nextVersionGo chooseFirst optsMajorPatch v123).prompt
      = some (promptLabel (semverOriginal v123), specsOf optsMajorPatch) :=
  ⟨by decide, (c2_menu_amended chooseFirst optsMajorPatch v123 (by decide)).1⟩

/-- C3: counterexample — when every phase up to tag creation succeeds
and the push then fails, `PushTag` still prints "Pushed to origin."
(the deferred print at line 164 runs on every return path after tag
creation), so the pushed milestone text is not emitted only on push
success. -/
theorem c3_counterexample :
    (pushTagGo envPushFail [] ("v1.0.1".toList)).ret = some ("auth".toList) ∧
    pushedLine ∈ (pushTagGo envPushFail [] ("v1.0.1".toList)).stdoutLines := by
  decide

/-- C3 (amended): the tag-created and pushed status lines are distinct
texts, and both are emitted exactly when the phases up to tag creation
succeed; the "Pushed to origin." line is printed by a deferred call
whether or not the push itself succeeds, so the milestone output is
identical for a failing and a succeeding push and does not indicate
that the push phase completed. -/
theorem c3_milestones_amended (env : PushEnv) (tags0 : List (List Char))
    (tag : List Char) :
    bumpLine tag ≠ pushedLine ∧
    (pushTagGo env tags0 tag).stdoutLines
      = (if prePhasesOk env then [bumpLine tag, pushedLine] else []) ∧
    (pushTagGo env tags0 tag).stdoutLines
      = (pushTagGo { env with pushResult := .ok () } tags0 tag).stdoutLines := by
  refine ⟨fun h => ?_, ?_, ?_⟩
  · have h1 : (bumpLine tag).head? = some 'B' := rfl
    rw [h] at h1
    exact absurd h1 (by decide)
  · rcases env with ⟨h1, h2, h3, h4, h5, h6⟩
    cases h1 <;> cases h2 <;> cases h3 <;> cases h4 <;> cases h5 <;> cases h6 <;>
      simp [pushTagGo, prePhasesOk, exceptOk]
  · rcases env with ⟨h1, h2, h3, h4, h5, h6⟩
    cases h1 <;> cases h2 <;> cases h3 <;> cases h4 <;> cases h5 <;> cases h6 <;>
      rfl

/-- C4: counterexample — for the valid current version `1.2.3-alpha`,
a Patch bump keeps the patch component at 3 (the semver library drops
the pre-release without incrementing when one is present), so Patch
does not give `(major, minor, patch+1)` for every valid current
version. -/
theorem c4_counterexample :
    semverNewVersion ("1.2.3-alpha".toList) = some v123alpha ∧
    (bumpBy v123alpha BumpSpec.Patch).patch ≠ v123alpha.patch + 1 := by
  decide

/-- C4 (amended): a bump always clears pre-release and metadata;
Major gives `((major+1) mod 2^64, 0, 0)`, Minor gives
`(major, (minor+1) mod 2^64, 0)`, and Patch gives
`(major, minor, (patch+1) mod 2^64)` when the current version has no
pre-release but `(major, minor, patch)` (no increment) when it has
one. -/
theorem c4_components_amended (v : SemVersion) (k : BumpSpec) :
    (bumpBy v k).pre = [] ∧ (bumpBy v k).metadata = [] ∧
    ((bumpBy v k).major, (bumpBy v k).minor, (bumpBy v k).patch)
      = (match k with
         | .Major => ((v.major + 1) % u64Mod, 0, 0)
         | .Minor => (v.major, (v.minor + 1) % u64Mod, 0)
         | .Patch => (v.major, v.minor,
                      if v.pre = [] then (v.patch + 1) % u64Mod else v.patch)) := by
  cases k <;> by_cases hp : v.pre = [] <;>
    simp [bumpBy, incMajor, incMinor, incPatch, hp]

/-- C5: counterexample — two Patch bumps from the valid version
`1.2.3-alpha` yield patch component 4 (the first bump only drops the
pre-release), not `patch + 2 = 5`. -/
theorem c5_counterexample :
    semverNewVersion ("1.2.3-alpha".toList) = some v123alpha ∧
    (bumpBy (bumpBy v123alpha BumpSpec.Patch) BumpSpec.Patch).patch
      ≠ v123alpha.patch + 2 := by
  decide

/-- C5 (amended): below the `uint64` wrap-around, every bump yields a
version strictly greater than its input under the program's ordering;
bumping the same kind twice adds two to the bumped component for Major
and Minor, and for Patch exactly when the starting version has no
pre-release — starting from a pre-release version, two Patch bumps add
only one, the first bump merely dropping the pre-release. -/
theorem c5_bump_amended (v : SemVersion) (k : BumpSpec)
    (hma : v.major + 2 < u64Mod) (hmi : v.minor + 2 < u64Mod)
    (hpa : v.patch + 2 < u64Mod) :
    semverLessThan v (bumpBy v k) = true ∧
    ((bumpBy (bumpBy v k) k).major, (bumpBy (bumpBy v k) k).minor,
     (bumpBy (bumpBy v k) k).patch)
      = (match k with
         | .Major => (v.major + 2, 0, 0)
         | .Minor => (v.major, v.minor + 2, 0)
         | .Patch => (v.major, v.minor,
                      if v.pre = [] then v.patch + 2 else v.patch + 1)) := by
  have hW : (0 : Nat) < u64Mod := by decide
  cases k with
  | Major =>
    have h1 : (v.major + 1) % u64Mod = v.major + 1 := Nat.mod_eq_of_lt (by omega)
    have h2 : (v.major + 1 + 1) % u64Mod = v.major + 2 := Nat.mod_eq_of_lt (by omega)
    constructor
    · simp [semverLessThan, bumpBy, incMajor, semverCompare, compareSegment, h1,
        Nat.lt_succ_self]
    · simp [bumpBy, incMajor, h1, h2]
  | Minor =>
    have h1 : (v.minor + 1) % u64Mod = v.minor + 1 := Nat.mod_eq_of_lt (by omega)
    have h2 : (v.minor + 1 + 1) % u64Mod = v.minor + 2 := Nat.mod_eq_of_lt (by omega)
    constructor
    · simp [semverLessThan, bumpBy, incMinor, semverCompare, compareSegment, h1,
        Nat.lt_succ_self]
    · simp [bumpBy, incMinor, h1, h2]
  | Patch =>
    by_cases hp : v.pre = []
    · have h1 : (v.patch + 1) % u64Mod = v.patch + 1 := Nat.mod_eq_of_lt (by omega)
      have h2 : (v.patch + 1 + 1) % u64Mod = v.patch + 2 := Nat.mod_eq_of_lt (by omega)
      constructor
      · simp [semverLessThan, bumpBy, incPatch, hp, semverCompare, compareSegment,
          h1, Nat.lt_succ_self]
      · simp [bumpBy, incPatch, hp, h1, h2]
    · have h1 : (v.patch + 1) % u64Mod = v.patch + 1 := Nat.mod_eq_of_lt (by omega)
      constructor
      · simp [semverLessThan, bumpBy, incPatch, hp, semverCompare, compareSegment,
          preCmpBlock]
      · simp [bumpBy, incPatch, hp, h1]

/-- C5 witness: the amended bump behaviour at the pre-release version
`1.2.3-alpha` with a Patch bump. -/
theorem c5_bump_amended_witness :
    (v123alpha.major + 2 < u64Mod ∧ v123alpha.minor + 2 < u64Mod ∧
     v123alpha.patch + 2 < u64Mod) ∧
    (semverLessThan v123alpha (bumpBy v123alpha BumpSpec.Patch) = true ∧
     ((bumpBy (bumpBy v123alpha BumpSpec.Patch) BumpSpec.Patch).major,
      (bumpBy (bumpBy v123alpha BumpSpec.Patch) BumpSpec.Patch).minor,
      (bumpBy (bumpBy v123alpha BumpSpec.Patch) BumpSpec.Patch).patch)
       = (v123alpha.major, v123alpha.minor,
          if v123alpha.pre = [] then v123alpha.patch + 2
          else v123alpha.patch + 1)) :=
  ⟨⟨by decide, by decide, by decide⟩,
   c5_bump_amended v123alpha BumpSpec.Patch (by decide) (by decide) (by decide)⟩

/-- C6: for a non-empty tag list in which every tag parses, the scan
returns an element of the parsed version set that is greater than or
equal to every parsed version under the semantic-version ordering
(`Compare` of the result against any element is non-negative). -/
theorem c6_current_is_max (tags : List (List Char)) (h1 : tags ≠ [])
    (h2 : ∀ t ∈ tags, (semverNewVersion t).isSome = true) :
    ∃ m, currentVersionGo tags = .ok (some m) ∧
      some m ∈ versionSlice tags ∧
      ∀ t ∈ tags, ∀ v, semverNewVersion t = some v → semverCompare m v ≥ 0 := by
  cases tags with
  | nil => exact absurd rfl h1
  | cons t0 ts =>
    rcases hv0 : semverNewVersion t0 with _ | v0
    · have := h2 t0 (by simp)
      rw [hv0] at this
      simp at this
    cases ts with
    | nil =>
      refine ⟨v0, ?_, ?_, ?_⟩
      · simp [currentVersionGo, versionSlice, hv0]
      · simp [versionSlice, hv0]
      · intro t ht v hv
        have ht0 : t = t0 := by simpa using ht
        subst ht0
        rw [hv0, Option.some.injEq] at hv
        subst hv
        rw [ge_iff_le, semverCompare_self]
    | cons t1 ts1 =>
      have hall : (versionSlice (t0 :: t1 :: ts1)).all Option.isSome = true := by
        rw [List.all_eq_true]
        intro x hx
        rw [versionSlice, List.mem_map] at hx
        obtain ⟨t, ht, rfl⟩ := hx
        exact h2 t ht
      have hmem : ∀ w : SemVersion,
          w ∈ (versionSlice (t0 :: t1 :: ts1)).filterMap id ↔
            some w ∈ versionSlice (t0 :: t1 :: ts1) := by
        intro w
        simp [List.mem_filterMap]
      have hpv : ∀ w ∈ (versionSlice (t0 :: t1 :: ts1)).filterMap id, PVal w := by
        intro w hw
        have hsl := (hmem w).mp hw
        rw [versionSlice, List.mem_map] at hsl
        obtain ⟨t, _, hparse⟩ := hsl
        exact parse_PVal hparse
      have hv0mem : v0 ∈ (versionSlice (t0 :: t1 :: ts1)).filterMap id :=
        (hmem v0).mpr (by simp [versionSlice, hv0])
      have hps_ne : (versionSlice (t0 :: t1 :: ts1)).filterMap id ≠ [] :=
        List.ne_nil_of_mem hv0mem
      have hsp := sortGo_pairwise hpv
      have hsort_ne : sortGo ((versionSlice (t0 :: t1 :: ts1)).filterMap id) ≠ [] := by
        intro hh
        have hperm := sortGo_perm ((versionSlice (t0 :: t1 :: ts1)).filterMap id)
        rw [hh] at hperm
        exact hps_ne hperm.symm.eq_nil
      obtain ⟨m, hm_last, hm_mem_sorted, hm_max⟩ := getLast?_max hsort_ne hsp
      have hm_mem : m ∈ (versionSlice (t0 :: t1 :: ts1)).filterMap id :=
        (sortGo_perm _).subset hm_mem_sorted
      refine ⟨m, ?_, (hmem m).mp hm_mem, ?_⟩
      · unfold currentVersionGo
        simp only [versionSlice, List.map_cons]
        simp only [versionSlice, List.map_cons] at hall
        simp only [hall, if_true]
        rw [← List.map_cons, ← List.map_cons]
        rw [show List.map semverNewVersion (t0 :: t1 :: ts1)
            = versionSlice (t0 :: t1 :: ts1) from rfl]
        rw [hm_last]
      · intro t ht v hv
        have hv_mem : v ∈ (versionSlice (t0 :: t1 :: ts1)).filterMap id := by
          refine (hmem v).mpr ?_
          rw [versionSlice, List.mem_map]
          exact ⟨t, ht, hv⟩
        have hv_sorted : v ∈ sortGo ((versionSlice (t0 :: t1 :: ts1)).filterMap id) :=
          ((sortGo_perm _).mem_iff).mpr hv_mem
        have hle := hm_max v hv_sorted
        rw [goLe_true_iff] at hle
        omega

/-- C6 witness: the maximum behaviour on the tag list
`["v1.0.0", "v1.1.0", "v1.1.1"]`. -/
theorem c6_current_is_max_witness :
    (["v1.0.0".toList, "v1.1.0".toList, "v1.1.1".toList] ≠ ([] : List (List Char)) ∧
     ∀ t ∈ ["v1.0.0".toList, "v1.1.0".toList, "v1.1.1".toList],
       (semverNewVersion t).isSome = true) ∧
    (∃ m, currentVersionGo ["v1.0.0".toList, "v1.1.0".toList, "v1.1.1".toList]
        = .ok (some m) ∧
      some m ∈ versionSlice ["v1.0.0".toList, "v1.1.0".toList, "v1.1.1".toList] ∧
      ∀ t ∈ ["v1.0.0".toList, "v1.1.0".toList, "v1.1.1".toList],
        ∀ v, semverNewVersion t = some v → semverCompare m v ≥ 0) :=
  ⟨⟨by decide, by decide⟩,
   c6_current_is_max ["v1.0.0".toList, "v1.1.0".toList, "v1.1.1".toList]
     (by decide) (by decide)⟩

/-- C7: the published tag name starts with `"v"` exactly when the
current version's original text starts with `"v"` (a canonical version
string always starts with a decimal digit, so the marker can only come
from the branch at lines 103-105); without the marker the tag name is
exactly the next version's canonical string. -/
theorem c7_tag_marker (current next : SemVersion) :
    (['v'].isPrefixOf (tagNameOf current next)
       = ['v'].isPrefixOf (semverOriginal current)) ∧
    (['v'].isPrefixOf (semverOriginal current) = false →
       tagNameOf current next = versionString next) := by
  have hv := versionString_not_v next
  constructor
  · unfold tagNameOf
    by_cases hp : ['v'].isPrefixOf (semverOriginal current) = true
    · simp [hp, List.isPrefixOf]
    · have hp2 : ['v'].isPrefixOf (semverOriginal current) = false :=
        Bool.eq_false_iff.mpr (fun h => hp h)
      simp [hp2, hv]
  · intro h
    simp [tagNameOf, h]

/-- C7 witness: the marker behaviour at current version `0.1.0`. -/
theorem c7_tag_marker_witness :
    ['v'].isPrefixOf (semverOriginal v010) = false ∧
    tagNameOf v010 (bumpBy v010 BumpSpec.Major)
      = versionString (bumpBy v010 BumpSpec.Major) :=
  ⟨by decide, (c7_tag_marker v010 (bumpBy v010 BumpSpec.Major)).2 (by decide)⟩

/-- C8: a tag-creation failure returns before the push (the push is
never attempted and the local tag set is unchanged), and when the push
fails after a successful creation, the created tag is still in the
local tag set — nothing deletes it — and the push error is returned to
the caller. -/
theorem c8_publish_sequence (env : PushEnv) (tags0 : List (List Char))
    (tag : List Char) :
    (∀ e, env.createTagResult = .error e →
       (pushTagGo env tags0 tag).pushAttempted = false ∧
       (pushTagGo env tags0 tag).localTags = tags0) ∧
    (∀ e, prePhasesOk env = true → env.pushResult = .error e →
       tag ∈ (pushTagGo env tags0 tag).localTags ∧
       (pushTagGo env tags0 tag).ret = some e) := by
  rcases env with ⟨h1, h2, h3, h4, h5, h6⟩
  cases h1 <;> cases h2 <;> cases h3 <;> cases h4 <;> cases h5 <;> cases h6 <;>
    simp [pushTagGo, prePhasesOk, exceptOk]

/-- C8 witness: the sequencing behaviour at a failing tag creation and
at a failing push. -/
theorem c8_publish_sequence_witness :
    (envCreateFail.createTagResult = .error ("exists".toList) ∧
     (pushTagGo envCreateFail [] ("v9".toList)).pushAttempted = false) ∧
    (prePhasesOk envPushFail = true ∧
     ("v9".toList) ∈ (pushTagGo envPushFail [] ("v9".toList)).localTags) :=
  ⟨⟨by decide,
    ((c8_publish_sequence envCreateFail [] ("v9".toList)).1
      ("exists".toList) (by decide)).1⟩,
   ⟨by decide,
    ((c8_publish_sequence envPushFail [] ("v9".toList)).2
      ("auth".toList) (by decide) (by decide)).1⟩⟩

/-- C9: with no bump flag declared, `nextVersion` prompts over exactly
`[Patch, Minor, Major]` with a label built from the current version's
original text, and the selected item becomes the resolved kind; with
exactly one flag declared, that kind is applied directly and no prompt
occurs. -/
theorem c9_intent_selection
    (choose : List Char → (items : List BumpSpec) → Except Unit (Fin items.length))
    (opt : GoOptions) (current : SemVersion) :
    (specsOf opt = [] →
       (nextVersionGo choose opt current).prompt
         = some (promptLabel (semverOriginal current),
                 [BumpSpec.Patch, BumpSpec.Minor, BumpSpec.Major]) ∧
       ∀ i : Fin 3,
         choose (promptLabel (semverOriginal current))
             [BumpSpec.Patch, BumpSpec.Minor, BumpSpec.Major] = .ok i →
         (nextVersionGo choose opt current).result
           = .ok (bumpBy current
               ([BumpSpec.Patch, BumpSpec.Minor, BumpSpec.Major].get i))) ∧
    (∀ s, specsOf opt = [s] →
       (nextVersionGo choose opt current).prompt = none ∧
       (nextVersionGo choose opt current).result = .ok (bumpBy current s)) := by
  constructor
  · intro hs
    constructor
    · simp only [nextVersionGo, hs]
      cases choose (promptLabel (semverOriginal current))
          [BumpSpec.Patch, BumpSpec.Minor, BumpSpec.Major] <;> rfl
    · intro i hi
      simp only [nextVersionGo, hs, hi]
  · intro s hs
    simp [nextVersionGo, hs]

/-- C9 witness: the selection behaviour with no flags (prompt over the
full menu) and with exactly the `--minor` flag (no prompt). -/
theorem c9_intent_selection_witness :
    (specsOf optsNone = [] ∧
     (nextVersionGo chooseFirst optsNone v123).prompt
       = some (promptLabel (semverOriginal v123),
               [BumpSpec.Patch, BumpSpec.Minor, BumpSpec.Major])) ∧
    (specsOf optsMinor = [BumpSpec.Minor] ∧
     (nextVersionGo chooseFirst optsMinor v123).prompt = none ∧
     (nextVersionGo chooseFirst optsMinor v123).result
       = .ok (bumpBy v123 BumpSpec.Minor)) :=
  ⟨⟨by decide, ((c9_intent_selection chooseFirst optsNone v123).1 (by decide)).1⟩,
   ⟨by decide, (c9_intent_selection chooseFirst optsMinor v123).2
      BumpSpec.Minor (by decide)⟩⟩

/-- C10: when the inner `cli.Run` fails, the `[ERROR]`-prefixed message
is written to the real process stderr and the exit code is 1, for both
values of the quiet flag; quiet mode only redirects the CLI writer
fields (through which the milestone lines go) to the discarding sink,
so error output is never suppressed. -/
theorem c10_error_reporting (quiet : Bool) (innerLines : List (List Char))
    (msg : List Char) :
    (runGo quiet innerLines (some msg)).1 = 1 ∧
    (runGo quiet innerLines (some msg)).2
      = innerLines.map
          (fun l => ((if quiet then GoWriter.discard else GoWriter.stdout), l))
        ++ [(GoWriter.stderr, errorLine msg)] ∧
    applyQuiet true initialWriters = ⟨GoWriter.discard, GoWriter.discard⟩ ∧
    (GoWriter.stderr, errorLine msg) ∈ (runGo quiet innerLines (some msg)).2 := by
  cases quiet <;> simp [runGo, applyQuiet, initialWriters]

end GitBump
